import Mathlib

/-!
Verification of the geteed terminal text editor's core
(line buffer, cursor, search/replace, per-line syntax tokenizer),
shallowly embedded from `src/main.py`.

Lines of text are modelled as `List Char` (Python `str`), the buffer as
`List (List Char)`, and machine integers as `Nat` (all indices in the
source are non-negative).  Python slicing `line[a:b]` is `(line.take b).drop a`,
`line[a:]` is `line.drop a`, `line[:b]` is `line.take b`, and
`line.startswith(s, i)` is `s.isPrefixOf (line.drop i)`.
Out-of-range reads, which raise `IndexError` in Python, are modelled with
`List.getD` together with an explicit log of the indices read (see the
tokenizer below), so that the safety claims about reads can be settled.
-/

namespace Geteed

/-- Shorthand turning a string literal into the `List Char` model of a Python
string. -/
def cl (s : String) : List Char := s.toList

/-- Model of Python `text.split(sep)` for the one-character separator
newline, as used by `TextEditor.insert_text` (`text.split('\n')`); always
returns at least one piece. -/
def splitNl : List Char → List (List Char)
  | [] => [[]]
  | c :: rest =>
    if c = '\n' then [] :: splitNl rest
    else
      match splitNl rest with
      | [] => [[c]]
      | p :: ps => (c :: p) :: ps

/-- Model of Python `'\n'.join(parts)`. -/
def joinNl (parts : List (List Char)) : List Char := List.intercalate ['\n'] parts

/-- The editor session state: the fields of `TextEditor` that the core
buffer operations read or write.  `cursor_x` is the column of the cursor and
`cursor_y` its row, exactly as in the source. -/
structure EditorState where
  lines : List (List Char)
  cursor_x : Nat
  cursor_y : Nat
  modified : Bool
  read_only : Bool
deriving DecidableEq

/-- Embedding of `TextEditor.insert_text` (src/main.py lines 221-250):
splits the text on newlines; a single segment is spliced into the cursor
line, several segments splice the first into the left part of the cursor
line, the last into the right part, with the middle segments becoming whole
lines in between. -/
def insert_text (st : EditorState) (text : List Char) : EditorState :=
  if st.read_only then st
  else
    let parts := splitNl text
    if parts.length = 1 then
      let line := st.lines.getD st.cursor_y []
      { st with
        lines := st.lines.set st.cursor_y
          (line.take st.cursor_x ++ text ++ line.drop st.cursor_x),
        cursor_x := st.cursor_x + text.length,
        modified := true }
    else
      let line := st.lines.getD st.cursor_y []
      let first_line := line.take st.cursor_x ++ parts.headD []
      let last_line := parts.getLastD [] ++ line.drop st.cursor_x
      let middle_lines := if parts.length > 2 then (parts.drop 1).dropLast else []
      { st with
        lines := st.lines.take st.cursor_y ++ [first_line] ++ middle_lines
          ++ [last_line] ++ st.lines.drop (st.cursor_y + 1),
        cursor_y := st.cursor_y + (parts.length - 1),
        cursor_x := (parts.getLastD []).length,
        modified := true }

/-- Embedding of `TextEditor.delete_selection` (src/main.py lines 252-283).
Positions are `(row, column)` pairs as in the source, where `start[0]`
indexes `self.lines`.  Note that the source ends with
`self.cursor_x, self.cursor_y = start`, which assigns the row to `cursor_x`
and the column to `cursor_y`; that assignment is reproduced verbatim here. -/
def delete_selection (st : EditorState) (s e : Nat × Nat) :
    EditorState × List Char :=
  if s = e then (st, [])
  else if s.1 = e.1 then
    let line := st.lines.getD s.1 []
    let deleted := (line.take e.2).drop s.2
    ({ st with
       lines := st.lines.set s.1 (line.take s.2 ++ line.drop e.2),
       cursor_x := s.1,
       cursor_y := s.2,
       modified := true }, deleted)
  else
    let firstLine := st.lines.getD s.1 []
    let lastLine := st.lines.getD e.1 []
    let first_part := firstLine.take s.2
    let last_part := lastLine.drop e.2
    let middle_parts :=
      (List.range' (s.1 + 1) (e.1 - (s.1 + 1))).map (fun i => st.lines.getD i [])
    let deleted :=
      firstLine.drop s.2 ++ ['\n'] ++ joinNl middle_parts ++ ['\n'] ++ lastLine.take e.2
    ({ st with
       lines := st.lines.take s.1 ++ [first_part ++ last_part] ++ st.lines.drop (e.1 + 1),
       cursor_x := s.1,
       cursor_y := s.2,
       modified := true }, deleted)

/-- Embedding of `TextEditor.get_selection` (src/main.py lines 285-295), the
read-only analog of `delete_selection`. -/
def get_selection (st : EditorState) (s e : Nat × Nat) : List Char :=
  if s = e then []
  else if s.1 = e.1 then
    ((st.lines.getD s.1 []).take e.2).drop s.2
  else
    let first_part := (st.lines.getD s.1 []).drop s.2
    let middle_parts :=
      (List.range' (s.1 + 1) (e.1 - (s.1 + 1))).map (fun i => st.lines.getD i [])
    let last_part := (st.lines.getD e.1 []).take e.2
    first_part ++ ['\n'] ++ joinNl middle_parts ++ ['\n'] ++ last_part

/-- The Position invariant of the spec, for the cursor: the row is a valid
line index and the column is at most the length of its line. -/
def cursorInvariant (st : EditorState) : Prop :=
  st.cursor_y < st.lines.length ∧ st.cursor_x ≤ (st.lines.getD st.cursor_y []).length

instance (st : EditorState) : Decidable (cursorInvariant st) := by
  unfold cursorInvariant; infer_instance

/-- Helper for the model of Python `line.find(term, start)`: scans the
suffix of the line starting at absolute position `pos` and returns the first
absolute position at which `term` is a prefix. -/
def findAux (term : List Char) : List Char → Nat → Option Nat
  | [], pos => if term.isPrefixOf [] then some pos else none
  | c :: rest, pos =>
    if term.isPrefixOf (c :: rest) then some pos else findAux term rest (pos + 1)

/-- Model of Python `line.find(term, start)` restricted to non-negative
`start`: the least `x ≥ start` with `term` occurring at `x`, and `none`
(Python `-1`) when there is no such occurrence or `start` exceeds the line
length. -/
def strFind (line term : List Char) (start : Nat) : Option Nat :=
  if start ≤ line.length then findAux term (line.drop start) start else none

/-- One scanning pass of `TextEditor.find_next`: visits the given row
indices in order; the first row is searched from column `sx`, every later
row from column 0 (the source resets `start_x = 0` after the first row). -/
def scanRowsFrom (lines : List (List Char)) (term : List Char) :
    List Nat → Nat → Option (Nat × Nat)
  | [], _ => none
  | y :: rest, sx =>
    match strFind (lines.getD y []) term sx with
    | some x => some (y, x)
    | none => scanRowsFrom lines term rest 0

/-- Embedding of `TextEditor.find_next` (src/main.py lines 297-317): empty
term yields `none`; otherwise a first pass over rows `cursor_y .. lineCount-1`
starting at column `cursor_x + 1` on the cursor row, then a wrap pass over
rows `0 .. cursor_y` searching each whole line. -/
def find_next (lines : List (List Char)) (cursor_y cursor_x : Nat)
    (term : List Char) : Option (Nat × Nat) :=
  if term = [] then none
  else
    match scanRowsFrom lines term
        (List.range' cursor_y (lines.length - cursor_y)) (cursor_x + 1) with
    | some p => some p
    | none => scanRowsFrom lines term (List.range (cursor_y + 1)) 0

/-- Spec-side scan order of `findNext` (spec section 4.3, claim C4), as a
list of candidate start positions: the rest of the cursor row beginning at
column `cursor_x + 1`, then every later row from column 0, then — wrapping —
the rows before the cursor row from column 0, and finally the cursor row up
to the original start column. -/
def specScanOrder (lines : List (List Char)) (cursor_y cursor_x : Nat) :
    List (Nat × Nat) :=
  (List.range' (cursor_x + 1) ((lines.getD cursor_y []).length - cursor_x)).map
      (fun x => (cursor_y, x))
    ++ (List.range' (cursor_y + 1) (lines.length - (cursor_y + 1))).flatMap
      (fun y => (List.range ((lines.getD y []).length + 1)).map (fun x => (y, x)))
    ++ (List.range cursor_y).flatMap
      (fun y => (List.range ((lines.getD y []).length + 1)).map (fun x => (y, x)))
    ++ (List.range (cursor_x + 1)).map (fun x => (cursor_y, x))

/-- The term occurs in the buffer starting at position `p = (row, column)`
(as a `Bool`, so that it can drive `List.find?`). -/
def occursAtB (lines : List (List Char)) (term : List Char) (p : Nat × Nat) : Bool :=
  term.isPrefixOf ((lines.getD p.1 []).drop p.2)

/-- Helper for the model of Python `line.replace(search, repl)` with a
non-empty `search`: `skip` counts characters of a just-matched occurrence
still to be consumed without being copied to the output. -/
def replAux (s r : List Char) : List Char → Nat → List Char
  | [], _ => []
  | _ :: rest, Nat.succ k => replAux s r rest k
  | c :: rest, 0 =>
    if s.isPrefixOf (c :: rest) then r ++ replAux s r rest (s.length - 1)
    else c :: replAux s r rest 0

/-- Model of Python `line.replace(search, repl)`: replaces the
non-overlapping occurrences of `search` left to right.  (Guarded on a
non-empty `search`; the editor's `replace_all` is only ever meaningful for a
non-empty search string.) -/
def pyReplace (line s r : List Char) : List Char :=
  if s.isEmpty then line else replAux s r line 0

/-- Helper for the model of Python `line.count(search)` with a non-empty
`search`, counting non-overlapping occurrences left to right. -/
def countAux (s : List Char) : List Char → Nat → Nat
  | [], _ => 0
  | _ :: rest, Nat.succ k => countAux s rest k
  | c :: rest, 0 =>
    if s.isPrefixOf (c :: rest) then 1 + countAux s rest (s.length - 1)
    else countAux s rest 0

/-- Model of Python `line.count(search)` (non-overlapping occurrences; for
the empty search Python returns `len(line) + 1`). -/
def countOccurrences (line s : List Char) : Nat :=
  if s.isEmpty then line.length + 1 else countAux s line 0

/-- Embedding of `TextEditor.replace_all` (src/main.py lines 354-365): for
each line, `new_line = line.replace(search, replace)`; only when `new_line`
differs from `line` is the per-line occurrence count added and the line
stored back; the modified flag is set only when the total count is
positive. -/
def replace_all (st : EditorState) (s r : List Char) : EditorState × Nat :=
  let newLines := st.lines.map
    (fun line => if pyReplace line s r = line then line else pyReplace line s r)
  let count := (st.lines.map
    (fun line => if pyReplace line s r = line then 0 else countOccurrences line s)).sum
  ({ st with
     lines := newLines,
     modified := if 0 < count then true else st.modified }, count)

/-- Embedding of `TextEditor.indent_line` (src/main.py lines 367-381) for
the given row: positive `amount` prepends `tab_size * amount` spaces,
negative `amount` (passed here as `deindent = true` with its magnitude)
removes up to `magnitude * tab_size` leading spaces, clipped to the spaces
actually present.  `tab_size` is 4 in the source. -/
def indent_line (st : EditorState) (y : Nat) (amount : Int) : EditorState :=
  if st.read_only then st
  else if 0 < amount then
    { st with
      lines := st.lines.set y
        (List.replicate (4 * amount.toNat) ' ' ++ st.lines.getD y []),
      modified := true }
  else if amount < 0 then
    let line := st.lines.getD y []
    let spaces := (line.takeWhile (fun c => c = ' ')).length
    let remove_spaces := min ((-amount).toNat * 4) spaces
    { st with lines := st.lines.set y (line.drop remove_spaces), modified := true }
  else { st with modified := true }

/-- Model of Python `f.readlines()` on file content: splits after every
newline, keeping the newline at the end of each piece, with no empty final
piece. -/
def pyReadlines : List Char → List (List Char)
  | [] => []
  | c :: rest =>
    if c = '\n' then ['\n'] :: pyReadlines rest
    else
      match pyReadlines rest with
      | [] => [[c]]
      | l :: ls => (c :: l) :: ls

/-- Model of Python `line.rstrip('\n')`: removes every trailing newline
character. -/
def rstripNl : List Char → List Char
  | [] => []
  | c :: rest =>
    match rstripNl rest with
    | [] => if c = '\n' then [] else [c]
    | r => c :: r

/-- Embedding of the file-loading step of `TextEditor.__init__`
(src/main.py lines 117-127): `[line.rstrip('\n') for line in f.readlines()]`
with the empty result replaced by a single empty line. -/
def open_file (content : List Char) : List (List Char) :=
  let ls := (pyReadlines content).map rstripNl
  if ls.isEmpty then [[]] else ls

/-- Spec-side description of the text removed by `deleteRange` (spec section
4.1): the removed spans — `line[start.row][start.column:]`, every full line
strictly between the rows, and `line[end.row][:end.column]` — joined with a
single newline between consecutive spans. -/
def specDeletedText (lines : List (List Char)) (s e : Nat × Nat) : List Char :=
  if s.1 = e.1 then ((lines.getD s.1 []).take e.2).drop s.2
  else
    joinNl ((lines.getD s.1 []).drop s.2
      :: (List.range' (s.1 + 1) (e.1 - (s.1 + 1))).map (fun i => lines.getD i [])
      ++ [(lines.getD e.1 []).take e.2])

/-- Kinds of display spans the highlighter produces. -/
inductive SpanKind where
  | keyword
  | string
  | comment
  | number
  | plain
deriving DecidableEq

/-- A display span over one line: columns `[startCol, endCol)` with a kind. -/
structure Span where
  startCol : Nat
  endCol : Nat
  kind : SpanKind
deriving DecidableEq

/-- A per-language highlighting rule set, as in `SyntaxHighlighter.rules`:
keyword list, string delimiters (tried in declaration order) and comment
delimiters.  Every rule set in the source uses the same number pattern,
a word-bounded digit run, which is built into the scanner below. -/
structure RuleSet where
  keywords : List (List Char)
  stringDelims : List (List Char)
  commentDelims : List (List Char)

/-- Model of Python `line.startswith(s, i)`. -/
def startsWithAt (line s : List Char) (i : Nat) : Bool :=
  s.isPrefixOf (line.drop i)

/-- A word character in the sense of the regex `\b` boundary. -/
def isWordChar (c : Char) : Bool := c.isAlphanum || c = '_'

/-- Model of `re.match(r'\b\d+\b', line[i:])` — the number pattern every
rule set of the source uses: matches when a non-empty maximal digit run
starts at `i` and the character following the run (if any) is not a word
character; returns the length of the match. -/
def numberMatchAt (line : List Char) (i : Nat) : Option Nat :=
  let digits := ((line.drop i).takeWhile Char.isDigit).length
  if digits = 0 then none
  else if i + digits < line.length && isWordChar (line.getD (i + digits) ' ') then none
  else some digits

/-- The mutable state of one `highlight_line` scanning pass, together with
the spans emitted so far and the log of every index `j` at which the source
evaluates a subscript `line[j]` (the guards `line[i-1]` / `line[i+len(kw)]`
of the keyword test and the `line[i]` of the plain-character branch). -/
structure ScanState where
  i : Nat
  inString : Bool
  stringDelim : List Char
  stringStart : Nat
  inComment : Bool
  commentStart : Nat
  spans : List Span
  reads : List Nat
deriving DecidableEq

/-- The keyword loop of `highlight_line` (src/main.py lines 848-857): tries
each keyword in order; on a prefix match the two word-boundary conditions
are evaluated with Python short-circuiting (each subscript they evaluate is
logged in `reads`); on full success the keyword span is emitted and the scan
position advances past the keyword. -/
def kwScan (line : List Char) : List (List Char) → ScanState → ScanState
  | [], st => st
  | kw :: rest, st =>
    if startsWithAt line kw st.i then
      let reads1 := if st.i = 0 then st.reads else st.reads ++ [st.i - 1]
      let b1 := st.i = 0 ∨ ¬ (line.getD (st.i - 1) ' ').isAlphanum
      if b1 then
        let reads2 :=
          if st.i + kw.length ≥ line.length then reads1
          else reads1 ++ [st.i + kw.length]
        let b2 := st.i + kw.length ≥ line.length
          ∨ ¬ (line.getD (st.i + kw.length) ' ').isAlphanum
        if b2 then
          { st with
            reads := reads2,
            spans := st.spans ++ [⟨st.i, st.i + kw.length, SpanKind.keyword⟩],
            i := st.i + kw.length }
        else kwScan line rest { st with reads := reads2 }
      else kwScan line rest { st with reads := reads1 }
    else kwScan line rest st

/-- One iteration of the `while` loop of `highlight_line` (src/main.py
lines 814-880), translated block by block: string open/close (a close
executes `continue`), comment start (jumps the position to the line end),
keyword loop, number match (also a `continue`), plain character (this is the
unguarded `line[i]` read), then `i += 1`. -/
def scanIter (rules : RuleSet) (line : List Char) (st : ScanState) : ScanState :=
  let strRes :=
    if ¬ st.inComment then
      if ¬ st.inString then
        match rules.stringDelims.find? (fun d => startsWithAt line d st.i) with
        | some d =>
          ({ st with
              inString := true,
              stringDelim := d,
              stringStart := st.i,
              i := st.i + d.length }, false)
        | none => (st, false)
      else
        if startsWithAt line st.stringDelim st.i then
          ({ st with
              inString := false,
              spans := st.spans
                ++ [⟨st.stringStart, st.i + st.stringDelim.length, SpanKind.string⟩],
              i := st.i + st.stringDelim.length }, true)
        else (st, false)
    else (st, false)
  let st1 := strRes.1
  if strRes.2 then st1
  else
    let st2 :=
      if ¬ st1.inString ∧ ¬ st1.inComment then
        match rules.commentDelims.find? (fun d => startsWithAt line d st1.i) with
        | some _ => { st1 with inComment := true, commentStart := st1.i, i := line.length }
        | none => st1
      else st1
    let st3 :=
      if ¬ st2.inString ∧ ¬ st2.inComment then kwScan line rules.keywords st2 else st2
    let numRes :=
      if ¬ st3.inString ∧ ¬ st3.inComment then
        match numberMatchAt line st3.i with
        | some len =>
          ({ st3 with
             spans := st3.spans ++ [⟨st3.i, st3.i + len, SpanKind.number⟩],
             i := st3.i + len }, true)
        | none => (st3, false)
      else (st3, false)
    let st4 := numRes.1
    if numRes.2 then st4
    else
      let st5 :=
        if ¬ st4.inString ∧ ¬ st4.inComment then
          { st4 with
            reads := st4.reads ++ [st4.i],
            spans := st4.spans ++ [⟨st4.i, st4.i + 1, SpanKind.plain⟩] }
        else st4
      { st5 with i := st5.i + 1 }

/-- The `while i < len(line) and i < max_len` loop of `highlight_line`.
The fuel is structural bookkeeping only: every iteration advances `i` by at
least one for rule sets with non-empty string delimiters, so the fuel
supplied by `highlight_line` is never exhausted on such rule sets. -/
def scanLoop (rules : RuleSet) (line : List Char) (maxLen : Nat) :
    Nat → ScanState → ScanState
  | 0, st => st
  | fuel + 1, st =>
    if st.i < line.length ∧ st.i < maxLen then
      scanLoop rules line maxLen fuel (scanIter rules line st)
    else st

/-- Embedding of the scanning pass of `TextEditor.highlight_line`
(src/main.py lines 813-894): the loop above followed by the handling of an
unterminated string or comment, whose open span is closed at
`min(len(line), max_len)`.  `maxLen` is the visible width
`screen_width - display_x - 1` of the source. -/
def highlight_line (rules : RuleSet) (line : List Char) (maxLen : Nat) : ScanState :=
  let st0 : ScanState := ⟨0, false, [], 0, false, 0, [], []⟩
  let st := scanLoop rules line maxLen (line.length + maxLen + 2) st0
  if st.inString then
    { st with
      spans := st.spans ++ [⟨st.stringStart, min line.length maxLen, SpanKind.string⟩] }
  else if st.inComment then
    { st with
      spans := st.spans ++ [⟨st.commentStart, min line.length maxLen, SpanKind.comment⟩] }
  else st

/-- The python rule set of `SyntaxHighlighter.load_default_rules`
(src/main.py lines 37-46), keywords and delimiters in source order. -/
def pythonRules : RuleSet where
  keywords :=
    [cl "def", cl "class", cl "if", cl "else", cl "elif", cl "for", cl "while",
     cl "try", cl "except", cl "finally", cl "with", cl "import", cl "from",
     cl "as", cl "return", cl "yield", cl "break", cl "continue", cl "pass",
     cl "raise", cl "lambda", cl "and", cl "or", cl "not", cl "is", cl "in",
     cl "True", cl "False", cl "None"]
  stringDelims := [['"'], ['\''], ['"', '"', '"'], ['\'', '\'', '\'']]
  commentDelims := [['#']]

/-! ### Concrete sample inputs used to settle the claims -/

/-- A two-line sample buffer in an editor session, cursor at the origin. -/
def sampleState : EditorState := ⟨[cl "abc", cl "def"], 0, 0, false, false⟩

/-- The line of claim C9, `say("hi") # end`. -/
def sayLine : List Char := cl "say(\"hi\") # end"

/-! ### C1 -/

/-- C1.  The claim states that `deleteRange` returns the removed spans
joined with a single newline between consecutive spans, with exactly one
newline when `end.row = start.row + 1`.  The code instead produces
`span1 + '\n' + '\n'.join(middle) + '\n' + span2`, which inserts two
newlines when there are no middle rows: deleting from `(0,2)` to `(1,1)` in
`["abc", "def"]` returns `"c\n\nd"` (two newlines) while the single-newline
join of the removed spans is `"c\nd"`; `get_selection` returns the same
doubled text. -/
theorem c1_delete_returns_doubled_newline :
    (delete_selection sampleState (0, 2) (1, 1)).2 = cl "c\n\nd"
    ∧ specDeletedText sampleState.lines (0, 2) (1, 1) = cl "c\nd"
    ∧ get_selection sampleState (0, 2) (1, 1) = cl "c\n\nd"
    ∧ (delete_selection sampleState (0, 2) (1, 1)).2
        ≠ specDeletedText sampleState.lines (0, 2) (1, 1)
    ∧ ((delete_selection sampleState (0, 2) (1, 1)).2.count '\n' = 2) := by
  decide

/-! ### C2 -/

/-- C2.  The claim states that after `deleteRange` the cursor is at the
`start` Position (row `start.row`, column `start.column`).  The source
executes `self.cursor_x, self.cursor_y = start`, which assigns `start.row`
to the cursor column and `start.column` to the cursor row: after deleting
`(0,2)`-`(1,1)` from `["abc", "def"]` the cursor is at column 0, row 2 —
the swap of the claimed position — and its row 2 is even out of range for
the one-line result buffer. -/
theorem c2_delete_cursor_swapped :
    ((delete_selection sampleState (0, 2) (1, 1)).1.cursor_x = 0
      ∧ (delete_selection sampleState (0, 2) (1, 1)).1.cursor_y = 2)
    ∧ ¬ ((delete_selection sampleState (0, 2) (1, 1)).1.cursor_y = 0
      ∧ (delete_selection sampleState (0, 2) (1, 1)).1.cursor_x = 2)
    ∧ ¬ cursorInvariant (delete_selection sampleState (0, 2) (1, 1)).1
    ∧ delete_selection sampleState (0, 0) (0, 0) = (sampleState, []) := by
  decide

/-! ### C3 -/

/-- C3.  The claim states that the scanning pass of the tokenizer never
reads a character index out of range, in particular when a keyword match
ends exactly at the end of the line.  On the line `def` with the python
rule set, the keyword match at columns 0-3 advances the scan position to 3
= len(line) and the same loop iteration then evaluates the plain-character
subscript `line[3]`, an out-of-range read (an `IndexError` in Python). -/
theorem c3_keyword_at_eol_reads_out_of_range :
    3 ∈ (highlight_line pythonRules (cl "def") 80).reads
    ∧ ¬ (3 < (cl "def").length)
    ∧ ¬ (∀ j ∈ (highlight_line pythonRules (cl "def") 80).reads,
          j < (cl "def").length) := by
  decide

/-! ### C7 -/

/-- C7.  The claim states that after every buffer mutation the cursor
satisfies the Position invariant.  `replace_all` never re-clamps the
cursor: starting from the valid state with buffer `["aaaa"]` and cursor at
`(row 0, column 4)`, replacing `"aaaa"` by the empty string shrinks the
line to length 0 while the cursor column stays 4, violating the
invariant. -/
theorem c7_replace_all_leaves_cursor_unclamped :
    cursorInvariant (⟨[cl "aaaa"], 4, 0, false, false⟩ : EditorState)
    ∧ ¬ cursorInvariant
        (replace_all (⟨[cl "aaaa"], 4, 0, false, false⟩ : EditorState)
          (cl "aaaa") []).1 := by
  decide

/-! ### C9 -/

/-- C9 counterexample.  The claim says the string span covers exactly five
characters.  Tokenizing `say("hi") # end` with the python rule set (string
delimiters include `"`, comment delimiters include `#`), the only string
span is columns `[4, 8)` — four characters, not five. -/
theorem c9_string_span_is_four_chars :
    (highlight_line pythonRules sayLine 80).spans.filter
        (fun sp => sp.kind == SpanKind.string) = [⟨4, 8, SpanKind.string⟩]
    ∧ ¬ ((8 : Nat) - 4 = 5) := by
  decide

/-- C9 as amended: the string span covers exactly the four characters
`"hi"` (both quote characters included), the comment span covers exactly
`# end` through the end of the line, and the two spans do not overlap. -/
theorem c9_string_and_comment_spans :
    (highlight_line pythonRules sayLine 80).spans.filter
        (fun sp => sp.kind == SpanKind.string) = [⟨4, 8, SpanKind.string⟩]
    ∧ (sayLine.drop 4).take (8 - 4) = cl "\"hi\""
    ∧ (highlight_line pythonRules sayLine 80).spans.filter
        (fun sp => sp.kind == SpanKind.comment) = [⟨10, 15, SpanKind.comment⟩]
    ∧ (sayLine.drop 10).take (15 - 10) = cl "# end"
    ∧ sayLine.length = 15
    ∧ (8 : Nat) ≤ 10 := by
  decide

/-! ### C10 -/

theorem rstripNl_cons_of_ne (ch : Char) (l : List Char) (h : ch ≠ '\n') :
    rstripNl (ch :: l) = ch :: rstripNl l := by
  show (match rstripNl l with
    | [] => if ch = '\n' then [] else [ch]
    | r => ch :: r) = ch :: rstripNl l
  cases hr : rstripNl l with
  | nil => simp [h]
  | cons r rs => rfl

theorem pyReadlines_ne_nil (c : List Char) (h : c ≠ []) : pyReadlines c ≠ [] := by
  cases c with
  | nil => exact absurd rfl h
  | cons ch rest =>
    show (if ch = '\n' then ['\n'] :: pyReadlines rest
      else match pyReadlines rest with
        | [] => [[ch]]
        | l :: ls => (ch :: l) :: ls) ≠ []
    by_cases hch : ch = '\n'
    · simp [hch]
    · rw [if_neg hch]
      cases pyReadlines rest <;> simp

theorem splitNl_ne_nil (c : List Char) : splitNl c ≠ [] := by
  cases c with
  | nil => simp [splitNl]
  | cons ch rest =>
    show (if ch = '\n' then [] :: splitNl rest
      else match splitNl rest with
        | [] => [[ch]]
        | p :: ps => (ch :: p) :: ps) ≠ []
    by_cases hch : ch = '\n'
    · simp [hch]
    · rw [if_neg hch]
      cases splitNl rest <;> simp

/-- The characterization of the loading step: the buffer is the content
split on newlines, except that a final empty piece (present exactly when
the content ends in a newline) is dropped, and empty content yields one
empty line. -/
theorem readlines_rstrip (c : List Char) :
    (pyReadlines c).map rstripNl
      = if c = [] then []
        else if c.getLast? = some '\n' then (splitNl c).dropLast
        else splitNl c := by
  induction c with
  | nil => simp [pyReadlines]
  | cons ch rest ih =>
    by_cases hch : ch = '\n'
    · subst hch
      cases rest with
      | nil => simp [pyReadlines, rstripNl, splitNl]
      | cons r rs =>
        have hrl : pyReadlines ('\n' :: r :: rs) = ['\n'] :: pyReadlines (r :: rs) := by
          simp [pyReadlines]
        have hsp : splitNl ('\n' :: r :: rs) = [] :: splitNl (r :: rs) := by
          simp [splitNl]
        have hstrip : rstripNl ['\n'] = [] := by simp [rstripNl]
        rw [hrl, List.map_cons, hstrip, ih, hsp]
        simp only [List.getLast?_cons_cons, reduceCtorEq, if_false, if_neg
          (List.cons_ne_nil r rs)]
        by_cases hlast : (r :: rs).getLast? = some '\n'
        · rw [if_pos hlast, if_pos hlast,
            List.dropLast_cons_of_ne_nil (splitNl_ne_nil (r :: rs))]
        · rw [if_neg hlast, if_neg hlast]
    · cases rest with
      | nil =>
        simp only [pyReadlines, splitNl]
        rw [if_neg hch]
        simp [rstripNl, hch, if_neg hch]
      | cons r rs =>
        cases hrl : pyReadlines (r :: rs) with
        | nil => exact absurd hrl (pyReadlines_ne_nil _ (List.cons_ne_nil r rs))
        | cons l ls =>
          have hread : pyReadlines (ch :: r :: rs) = (ch :: l) :: ls := by
            show (if ch = '\n' then ['\n'] :: pyReadlines (r :: rs)
              else match pyReadlines (r :: rs) with
                | [] => [[ch]]
                | l' :: ls' => (ch :: l') :: ls') = (ch :: l) :: ls
            rw [if_neg hch, hrl]
          cases hsp : splitNl (r :: rs) with
          | nil => exact absurd hsp (splitNl_ne_nil (r :: rs))
          | cons p ps =>
            have hsplit : splitNl (ch :: r :: rs) = (ch :: p) :: ps := by
              show (if ch = '\n' then [] :: splitNl (r :: rs)
                else match splitNl (r :: rs) with
                  | [] => [[ch]]
                  | p' :: ps' => (ch :: p') :: ps') = (ch :: p) :: ps
              rw [if_neg hch, hsp]
            rw [hrl, hsp] at ih
            rw [hread, List.map_cons, rstripNl_cons_of_ne ch l hch, hsplit]
            simp only [List.getLast?_cons_cons, if_neg (List.cons_ne_nil r rs),
              if_neg (List.cons_ne_nil ch (r :: rs))] at ih ⊢
            by_cases hlast : (r :: rs).getLast? = some '\n'
            · rw [if_pos hlast] at ih ⊢
              cases ps with
              | nil => simp at ih
              | cons q qs =>
                rw [List.dropLast_cons₂] at ih
                injection ih with ih1 ih2
                rw [List.dropLast_cons₂, ih1, ih2]
            · rw [if_neg hlast] at ih ⊢
              injection ih with ih1 ih2
              rw [ih1, ih2]

/-- C10 counterexample.  The claim says a content ending in a newline
yields a final empty line (the buffer equals the content split on newline).
Opening the content `"a\n"` yields `["a"]`, while the split is
`["a", ""]`. -/
theorem c10_trailing_newline_dropped :
    open_file (cl "a\n") = [cl "a"]
    ∧ splitNl (cl "a\n") = [cl "a", []]
    ∧ open_file (cl "a\n") ≠ splitNl (cl "a\n") := by
  decide

/-- C10 as amended: opening a file yields the content split into lines on
newline, except that a content ending in a newline does not produce a
final empty line (the piece after the last newline, which is empty, is
dropped); an empty file yields a one-element buffer containing a single
empty line. -/
theorem c10_open_file_splits_content (c : List Char) :
    open_file c
      = if c = [] then [[]]
        else if c.getLast? = some '\n' then (splitNl c).dropLast
        else splitNl c := by
  unfold open_file
  by_cases hc : c = []
  · subst hc; simp [pyReadlines]
  · have hne : (pyReadlines c).map rstripNl ≠ [] := by
      cases hrl : pyReadlines c with
      | nil => exact absurd hrl (pyReadlines_ne_nil c hc)
      | cons l ls => simp
    show (if ((pyReadlines c).map rstripNl).isEmpty = true then [[]]
      else (pyReadlines c).map rstripNl) = _
    rw [if_neg (by rw [List.isEmpty_iff]; exact hne), readlines_rstrip, if_neg hc,
      if_neg hc]

/-! ### C5 and C6: properties of replacement -/

theorem isPrefixOf_length_le :
    ∀ (t l : List Char), t.isPrefixOf l = true → t.length ≤ l.length := by
  intro t
  induction t with
  | nil => intro l _; exact Nat.zero_le _
  | cons a as ih =>
    intro l h
    cases l with
    | nil => simp [List.isPrefixOf] at h
    | cons b bs =>
      rw [List.isPrefixOf_cons₂] at h
      obtain ⟨-, h2⟩ := Bool.and_eq_true_iff.mp h
      exact Nat.succ_le_succ (ih bs h2)

theorem isPrefixOf_append_drop :
    ∀ (t l : List Char), t.isPrefixOf l = true → t ++ l.drop t.length = l := by
  intro t
  induction t with
  | nil => intro l _; simp
  | cons a as ih =>
    intro l h
    cases l with
    | nil => simp [List.isPrefixOf] at h
    | cons b bs =>
      rw [List.isPrefixOf_cons₂] at h
      obtain ⟨h1, h2⟩ := Bool.and_eq_true_iff.mp h
      have hab : a = b := by exact beq_iff_eq.mp h1
      subst hab
      simp only [List.length_cons, List.cons_append, List.drop_succ_cons]
      rw [ih bs h2]

theorem replAux_length (s r : List Char) (hs : s ≠ []) :
    ∀ (line : List Char) (k : Nat),
      (replAux s r line k).length + countAux s line k * s.length
        = (line.drop k).length + countAux s line k * r.length := by
  intro line
  induction line with
  | nil => intro k; simp [replAux, countAux]
  | cons c rest ih =>
    intro k
    cases k with
    | succ m =>
      show (replAux s r rest m).length + countAux s rest m * s.length
        = ((c :: rest).drop (m + 1)).length + countAux s rest m * r.length
      rw [List.drop_succ_cons]
      exact ih m
    | zero =>
      by_cases h : s.isPrefixOf (c :: rest) = true
      · have hle : s.length ≤ rest.length + 1 := by
          have := isPrefixOf_length_le s (c :: rest) h
          simpa using this
        have e1 : replAux s r (c :: rest) 0
            = r ++ replAux s r rest (s.length - 1) := by
          show (if s.isPrefixOf (c :: rest) then r ++ replAux s r rest (s.length - 1)
            else c :: replAux s r rest 0) = _
          rw [if_pos h]
        have e2 : countAux s (c :: rest) 0 = 1 + countAux s rest (s.length - 1) := by
          show (if s.isPrefixOf (c :: rest) then 1 + countAux s rest (s.length - 1)
            else countAux s rest 0) = _
          rw [if_pos h]
        rw [e1, e2]
        have ihk := ih (s.length - 1)
        rw [List.length_drop] at ihk
        have hs1 : 1 ≤ s.length := by
          cases s with
          | nil => exact absurd rfl hs
          | cons x xs => exact Nat.succ_le_succ (Nat.zero_le _)
        simp only [List.length_append, List.drop_zero, List.length_cons,
          Nat.add_mul, Nat.one_mul]
        generalize hA : countAux s rest (s.length - 1) * s.length = A at ihk ⊢
        generalize hB : countAux s rest (s.length - 1) * r.length = B at ihk ⊢
        omega
      · have e1 : replAux s r (c :: rest) 0 = c :: replAux s r rest 0 := by
          show (if s.isPrefixOf (c :: rest) then r ++ replAux s r rest (s.length - 1)
            else c :: replAux s r rest 0) = _
          rw [if_neg (by simpa using h)]
        have e2 : countAux s (c :: rest) 0 = countAux s rest 0 := by
          show (if s.isPrefixOf (c :: rest) then 1 + countAux s rest (s.length - 1)
            else countAux s rest 0) = _
          rw [if_neg (by simpa using h)]
        rw [e1, e2]
        have ihk := ih 0
        rw [List.drop_zero] at ihk
        simp only [List.length_cons, List.drop_zero]
        generalize hA : countAux s rest 0 * s.length = A at ihk ⊢
        generalize hB : countAux s rest 0 * r.length = B at ihk ⊢
        omega

theorem replAux_of_countAux_zero (s r : List Char) :
    ∀ (line : List Char) (k : Nat),
      countAux s line k = 0 → replAux s r line k = line.drop k := by
  intro line
  induction line with
  | nil => intro k _; simp [replAux]
  | cons c rest ih =>
    intro k
    cases k with
    | succ m =>
      intro h
      show replAux s r rest m = (c :: rest).drop (m + 1)
      rw [List.drop_succ_cons]
      exact ih m h
    | zero =>
      intro h
      by_cases hp : s.isPrefixOf (c :: rest) = true
      · exfalso
        have e2 : countAux s (c :: rest) 0 = 1 + countAux s rest (s.length - 1) := by
          show (if s.isPrefixOf (c :: rest) then 1 + countAux s rest (s.length - 1)
            else countAux s rest 0) = _
          rw [if_pos hp]
        rw [e2] at h
        omega
      · have e1 : replAux s r (c :: rest) 0 = c :: replAux s r rest 0 := by
          show (if s.isPrefixOf (c :: rest) then r ++ replAux s r rest (s.length - 1)
            else c :: replAux s r rest 0) = _
          rw [if_neg (by simpa using hp)]
        have e2 : countAux s (c :: rest) 0 = countAux s rest 0 := by
          show (if s.isPrefixOf (c :: rest) then 1 + countAux s rest (s.length - 1)
            else countAux s rest 0) = _
          rw [if_neg (by simpa using hp)]
        rw [e2] at h
        rw [e1, List.drop_zero, ih 0 h, List.drop_zero]

theorem replAux_ne_of_same_length (s r : List Char) (hr : r ≠ s)
    (hlen : r.length = s.length) :
    ∀ (line : List Char) (k : Nat),
      countAux s line k ≠ 0 → replAux s r line k ≠ line.drop k := by
  intro line
  induction line with
  | nil => intro k h; exact absurd (by simp [countAux]) h
  | cons c rest ih =>
    intro k
    cases k with
    | succ m =>
      intro h
      show replAux s r rest m ≠ (c :: rest).drop (m + 1)
      rw [List.drop_succ_cons]
      exact ih m h
    | zero =>
      intro h heq
      rw [List.drop_zero] at heq
      by_cases hp : s.isPrefixOf (c :: rest) = true
      · have e1 : replAux s r (c :: rest) 0
            = r ++ replAux s r rest (s.length - 1) := by
          show (if s.isPrefixOf (c :: rest) then r ++ replAux s r rest (s.length - 1)
            else c :: replAux s r rest 0) = _
          rw [if_pos hp]
        have hdec : c :: rest = s ++ (c :: rest).drop s.length :=
          (isPrefixOf_append_drop s (c :: rest) hp).symm
        rw [e1, hdec] at heq
        obtain ⟨hrs, -⟩ := List.append_inj heq hlen
        exact hr hrs
      · have e1 : replAux s r (c :: rest) 0 = c :: replAux s r rest 0 := by
          show (if s.isPrefixOf (c :: rest) then r ++ replAux s r rest (s.length - 1)
            else c :: replAux s r rest 0) = _
          rw [if_neg (by simpa using hp)]
        have e2 : countAux s (c :: rest) 0 = countAux s rest 0 := by
          show (if s.isPrefixOf (c :: rest) then 1 + countAux s rest (s.length - 1)
            else countAux s rest 0) = _
          rw [if_neg (by simpa using hp)]
        rw [e1] at heq
        injection heq with heq1 heq2
        rw [e2] at h
        exact ih 0 h (by rw [List.drop_zero]; exact heq2)

/-- With a replacement different from the (non-empty) search string, a line
that `line.replace` leaves unchanged contains no occurrence of the search
string. -/
theorem count_zero_of_pyReplace_eq (line s r : List Char) (hs : s ≠ [])
    (hr : r ≠ s) (h : pyReplace line s r = line) : countOccurrences line s = 0 := by
  have hse : s.isEmpty = false := by
    cases s with
    | nil => exact absurd rfl hs
    | cons x xs => rfl
  unfold pyReplace at h
  rw [hse] at h
  simp only [Bool.false_eq_true, if_false] at h
  unfold countOccurrences
  rw [hse]
  simp only [Bool.false_eq_true, if_false]
  by_contra hcnt
  by_cases hlen : r.length = s.length
  · exact replAux_ne_of_same_length s r hr hlen line 0 hcnt
      (by rw [List.drop_zero]; exact h)
  · have hl := replAux_length s r hs line 0
    rw [List.drop_zero, h] at hl
    have : countAux s line 0 * s.length = countAux s line 0 * r.length := by omega
    exact hlen (Nat.eq_of_mul_eq_mul_left (Nat.pos_of_ne_zero hcnt) this).symm

/-- A line with no occurrence of the (non-empty) search string is left
unchanged by `line.replace`. -/
theorem pyReplace_eq_of_count_zero (line s r : List Char) (hs : s ≠ [])
    (h : countOccurrences line s = 0) : pyReplace line s r = line := by
  have hse : s.isEmpty = false := by
    cases s with
    | nil => exact absurd rfl hs
    | cons x xs => rfl
  unfold countOccurrences at h
  rw [hse] at h
  simp only [Bool.false_eq_true, if_false] at h
  unfold pyReplace
  rw [hse]
  simp only [Bool.false_eq_true, if_false]
  rw [replAux_of_countAux_zero s r line 0 h, List.drop_zero]

/-- C5 counterexample.  The claim quantifies over every replacement
string; with search `"a"` and replacement `"a"` on the buffer `["a"]`,
`line.replace` leaves the line unchanged, so the guard
`if new_line != line` skips the count and `replace_all` returns 0, while
the sum of per-line occurrence counts is 1. -/
theorem c5_counterexample :
    (replace_all (⟨[cl "a"], 0, 0, false, false⟩ : EditorState) (cl "a") (cl "a")).2 = 0
    ∧ ((⟨[cl "a"], 0, 0, false, false⟩ : EditorState).lines.map
        (fun line => countOccurrences line (cl "a"))).sum = 1
    ∧ (replace_all (⟨[cl "a"], 0, 0, false, false⟩ : EditorState) (cl "a") (cl "a")).2
        ≠ ((⟨[cl "a"], 0, 0, false, false⟩ : EditorState).lines.map
            (fun line => countOccurrences line (cl "a"))).sum := by
  decide

/-- C5 as amended: for a non-empty search string and a replacement string
different from it, `replace_all` returns the sum over all lines of the
number of non-overlapping occurrences of the search string before
substitution, replaces every such occurrence left to right within each line
(each line independently, never across a line boundary), and sets the
modified flag exactly when the flag was already set or the count is
positive. -/
theorem c5_replace_all_count (st : EditorState) (s r : List Char)
    (hs : s ≠ []) (hr : r ≠ s) :
    (replace_all st s r).2
        = (st.lines.map (fun line => countOccurrences line s)).sum
    ∧ ((replace_all st s r).1).lines = st.lines.map (fun line => pyReplace line s r)
    ∧ ((replace_all st s r).1).modified
        = (st.modified || decide (0 < (replace_all st s r).2)) := by
  have hcount : (replace_all st s r).2
      = (st.lines.map (fun line => countOccurrences line s)).sum := by
    show (st.lines.map
      (fun line => if pyReplace line s r = line then 0 else countOccurrences line s)).sum
      = (st.lines.map (fun line => countOccurrences line s)).sum
    congr 1
    apply List.map_congr_left
    intro line _
    by_cases h : pyReplace line s r = line
    · rw [if_pos h, count_zero_of_pyReplace_eq line s r hs hr h]
    · rw [if_neg h]
  refine ⟨hcount, ?_, ?_⟩
  · show st.lines.map
      (fun line => if pyReplace line s r = line then line else pyReplace line s r)
      = st.lines.map (fun line => pyReplace line s r)
    apply List.map_congr_left
    intro line _
    by_cases h : pyReplace line s r = line
    · rw [if_pos h, h]
    · rw [if_neg h]
  · show (if 0 < (st.lines.map
        (fun line => if pyReplace line s r = line then 0 else countOccurrences line s)).sum
      then true else st.modified)
      = (st.modified || decide (0 < (replace_all st s r).2))
    by_cases h : 0 < (replace_all st s r).2
    · have h' : 0 < (st.lines.map
          (fun line => if pyReplace line s r = line then 0
            else countOccurrences line s)).sum := h
      rw [if_pos h']
      simp [h]
    · have h' : ¬ 0 < (st.lines.map
          (fun line => if pyReplace line s r = line then 0
            else countOccurrences line s)).sum := h
      rw [if_neg h']
      simp [h]

/-- Witness for the amended C5 at a concrete input. -/
theorem c5_replace_all_count_witness :
    ((cl "ab" ≠ ([] : List Char)) ∧ (cl "x" ≠ cl "ab"))
    ∧ ((replace_all (⟨[cl "abab", cl "zab"], 0, 0, false, false⟩ : EditorState)
          (cl "ab") (cl "x")).2
        = ((⟨[cl "abab", cl "zab"], 0, 0, false, false⟩ : EditorState).lines.map
            (fun line => countOccurrences line (cl "ab"))).sum
      ∧ ((replace_all (⟨[cl "abab", cl "zab"], 0, 0, false, false⟩ : EditorState)
            (cl "ab") (cl "x")).1).lines
        = (⟨[cl "abab", cl "zab"], 0, 0, false, false⟩ : EditorState).lines.map
            (fun line => pyReplace line (cl "ab") (cl "x"))
      ∧ ((replace_all (⟨[cl "abab", cl "zab"], 0, 0, false, false⟩ : EditorState)
            (cl "ab") (cl "x")).1).modified
        = ((⟨[cl "abab", cl "zab"], 0, 0, false, false⟩ : EditorState).modified
            || decide (0 < (replace_all
                (⟨[cl "abab", cl "zab"], 0, 0, false, false⟩ : EditorState)
                (cl "ab") (cl "x")).2))) :=
  ⟨⟨by decide, by decide⟩,
    c5_replace_all_count (⟨[cl "abab", cl "zab"], 0, 0, false, false⟩ : EditorState)
      (cl "ab") (cl "x") (by decide) (by decide)⟩

/-- An editor state whose buffer contains no occurrence of the (non-empty)
search string is a fixed point of `replace_all`, which then returns count
0. -/
theorem replace_all_of_no_occurrence (st : EditorState) (s r : List Char)
    (hs : s ≠ []) (h : ∀ line ∈ st.lines, countOccurrences line s = 0) :
    replace_all st s r = (st, 0) := by
  have hfix : ∀ line ∈ st.lines, pyReplace line s r = line := fun line hm =>
    pyReplace_eq_of_count_zero line s r hs (h line hm)
  have hlines : st.lines.map
      (fun line => if pyReplace line s r = line then line else pyReplace line s r)
      = st.lines := by
    have : st.lines.map
        (fun line => if pyReplace line s r = line then line else pyReplace line s r)
        = st.lines.map (fun line => line) := by
      apply List.map_congr_left
      intro line hm
      rw [if_pos (hfix line hm)]
    rw [this, List.map_id']
  have hcnt : (st.lines.map
      (fun line => if pyReplace line s r = line then 0
        else countOccurrences line s)).sum = 0 := by
    apply List.sum_eq_zero
    intro x hx
    obtain ⟨line, hm, hval⟩ := List.mem_map.mp hx
    rw [if_pos (hfix line hm)] at hval
    exact hval.symm
  simp only [replace_all]
  rw [hcnt, hlines]
  simp

/-- C6 counterexample.  With search `"ab"` and replacement `"a"` (which
contains no occurrence of the search string), on the buffer `["abb"]` the
first call rewrites the line to `"ab"` — which again contains the search
string — so the second call with the same arguments changes the buffer
again and returns count 1, not 0. -/
theorem c6_counterexample :
    countOccurrences (cl "a") (cl "ab") = 0
    ∧ (replace_all (⟨[cl "abb"], 0, 0, false, false⟩ : EditorState)
        (cl "ab") (cl "a")).1.lines = [cl "ab"]
    ∧ (replace_all ((replace_all (⟨[cl "abb"], 0, 0, false, false⟩ : EditorState)
        (cl "ab") (cl "a")).1) (cl "ab") (cl "a")).2 = 1
    ∧ ¬ ((replace_all ((replace_all (⟨[cl "abb"], 0, 0, false, false⟩ : EditorState)
        (cl "ab") (cl "a")).1) (cl "ab") (cl "a")).2 = 0
      ∧ (replace_all ((replace_all (⟨[cl "abb"], 0, 0, false, false⟩ : EditorState)
          (cl "ab") (cl "a")).1) (cl "ab") (cl "a")).1
        = (replace_all (⟨[cl "abb"], 0, 0, false, false⟩ : EditorState)
            (cl "ab") (cl "a")).1) := by
  decide

/-- C6 as amended: when the buffer produced by the first `replace_all` call
contains no occurrence of the (non-empty) search string — which the
hypothesis that the replacement contains no occurrence of the search string
does not by itself guarantee — the second call with the same arguments
leaves the buffer unchanged and returns count 0. -/
theorem c6_replace_all_exhausted (st : EditorState) (s r : List Char)
    (hs : s ≠ [])
    (hex : ∀ line ∈ ((replace_all st s r).1).lines, countOccurrences line s = 0) :
    replace_all ((replace_all st s r).1) s r = ((replace_all st s r).1, 0) :=
  replace_all_of_no_occurrence ((replace_all st s r).1) s r hs hex

/-- Witness for the amended C6 at a concrete input: one pass of replacing
`"b"` by `"c"` in `["abb"]` is exhaustive, and the second pass is the
identity with count 0. -/
theorem c6_replace_all_exhausted_witness :
    ((cl "b" ≠ ([] : List Char))
      ∧ (∀ line ∈ ((replace_all (⟨[cl "abb"], 0, 0, false, false⟩ : EditorState)
          (cl "b") (cl "c")).1).lines, countOccurrences line (cl "b") = 0))
    ∧ replace_all ((replace_all (⟨[cl "abb"], 0, 0, false, false⟩ : EditorState)
          (cl "b") (cl "c")).1) (cl "b") (cl "c")
      = ((replace_all (⟨[cl "abb"], 0, 0, false, false⟩ : EditorState)
          (cl "b") (cl "c")).1, 0) :=
  ⟨⟨by decide, by decide⟩,
    c6_replace_all_exhausted (⟨[cl "abb"], 0, 0, false, false⟩ : EditorState)
      (cl "b") (cl "c") (by decide) (by decide)⟩

/-! ### C8: insert and delete are mutual inverses for single-segment text -/

theorem splitNl_no_newline :
    ∀ (t : List Char), '\n' ∉ t → splitNl t = [t] := by
  intro t
  induction t with
  | nil => intro _; rfl
  | cons c rest ih =>
    intro h
    have hc : c ≠ '\n' := fun hc => h (hc ▸ List.mem_cons_self c rest)
    have hrest : '\n' ∉ rest := fun hm => h (List.mem_cons_of_mem c hm)
    show (if c = '\n' then [] :: splitNl rest
      else match splitNl rest with
        | [] => [[c]]
        | p :: ps => (c :: p) :: ps) = [c :: rest]
    rw [if_neg hc, ih hrest]

theorem set_getD_self :
    ∀ (l : List (List Char)) (i : Nat) (d : List Char), l.set i (l.getD i d) = l := by
  intro l
  induction l with
  | nil => intro i d; rfl
  | cons x xs ih =>
    intro i d
    cases i with
    | zero => rfl
    | succ j =>
      show x :: xs.set j (xs.getD j d) = x :: xs
      rw [ih j d]

theorem getD_set_self (l : List (List Char)) (i : Nat) (a d : List Char)
    (h : i < l.length) : (l.set i a).getD i d = a := by
  induction l generalizing i with
  | nil => simp at h
  | cons x xs ih =>
    cases i with
    | zero => rfl
    | succ j =>
      show (xs.set j a).getD j d = a
      exact ih j (Nat.lt_of_succ_lt_succ h)

/-- C8.  Inserting a newline-free text at the cursor position and then
deleting the selection from that position to the position shifted right by
the length of the text on the same row restores the original buffer. -/
theorem c8_insert_delete_inverse (st : EditorState) (t : List Char)
    (hro : st.read_only = false)
    (hcy : st.cursor_y < st.lines.length)
    (hcx : st.cursor_x ≤ (st.lines.getD st.cursor_y []).length)
    (ht : '\n' ∉ t) :
    ((delete_selection (insert_text st t) (st.cursor_y, st.cursor_x)
        (st.cursor_y, st.cursor_x + t.length)).1).lines = st.lines := by
  set line := st.lines.getD st.cursor_y [] with hline
  have hins : insert_text st t = { st with
      lines := st.lines.set st.cursor_y
        (line.take st.cursor_x ++ t ++ line.drop st.cursor_x),
      cursor_x := st.cursor_x + t.length,
      modified := true } := by
    unfold insert_text
    rw [if_neg (by rw [hro]; exact Bool.false_ne_true), splitNl_no_newline t ht]
    rfl
  have htk : (line.take st.cursor_x).length = st.cursor_x := by
    rw [List.length_take]
    exact min_eq_left hcx
  cases hT : t with
  | nil =>
    subst hT
    have : (st.cursor_y, st.cursor_x) = (st.cursor_y, st.cursor_x + ([] : List Char).length) := by
      simp
    rw [hins]
    unfold delete_selection
    rw [if_pos this]
    show (st.lines.set st.cursor_y (line.take st.cursor_x ++ [] ++ line.drop st.cursor_x)) = st.lines
    rw [List.append_nil, List.take_append_drop, hline, set_getD_self]
  | cons c0 t0 =>
    rw [← hT]
    have htne : t ≠ [] := by rw [hT]; exact List.cons_ne_nil c0 t0
    have hne : ((st.cursor_y, st.cursor_x) : Nat × Nat)
        ≠ (st.cursor_y, st.cursor_x + t.length) := by
      intro hcontra
      have := (Prod.mk.injEq .. ▸ hcontra).2
      have hlen : t.length = 0 := by omega
      exact htne (List.length_eq_zero.mp hlen)
    rw [hins]
    unfold delete_selection
    rw [if_neg hne, if_pos rfl]
    have hget : ((st.lines.set st.cursor_y
        (line.take st.cursor_x ++ t ++ line.drop st.cursor_x)).getD st.cursor_y [])
        = line.take st.cursor_x ++ t ++ line.drop st.cursor_x :=
      getD_set_self st.lines st.cursor_y _ [] hcy
    show (st.lines.set st.cursor_y
        (line.take st.cursor_x ++ t ++ line.drop st.cursor_x)).set st.cursor_y
        (((st.lines.set st.cursor_y
            (line.take st.cursor_x ++ t ++ line.drop st.cursor_x)).getD st.cursor_y
            []).take st.cursor_x
          ++ ((st.lines.set st.cursor_y
            (line.take st.cursor_x ++ t ++ line.drop st.cursor_x)).getD st.cursor_y
            []).drop (st.cursor_x + t.length))
        = st.lines
    rw [hget]
    have e1 : (line.take st.cursor_x ++ t ++ line.drop st.cursor_x).take st.cursor_x
        = line.take st.cursor_x := by
      rw [List.append_assoc]
      exact List.take_left' htk
    have e2 : (line.take st.cursor_x ++ t ++ line.drop st.cursor_x).drop
        (st.cursor_x + t.length) = line.drop st.cursor_x := by
      apply List.drop_left'
      rw [List.length_append, htk]
    rw [e1, e2, List.take_append_drop, List.set_set, hline, set_getD_self]

/-- Witness for C8 at a concrete input: inserting `"xy"` at position
`(0, 1)` of `["ab", "cd"]` and deleting the selection `(0,1)`-`(0,3)`
restores the buffer. -/
theorem c8_insert_delete_inverse_witness :
    ((⟨[cl "ab", cl "cd"], 1, 0, false, false⟩ : EditorState).read_only = false
      ∧ (⟨[cl "ab", cl "cd"], 1, 0, false, false⟩ : EditorState).cursor_y
          < (⟨[cl "ab", cl "cd"], 1, 0, false, false⟩ : EditorState).lines.length
      ∧ (⟨[cl "ab", cl "cd"], 1, 0, false, false⟩ : EditorState).cursor_x
          ≤ ((⟨[cl "ab", cl "cd"], 1, 0, false, false⟩ : EditorState).lines.getD
              (⟨[cl "ab", cl "cd"], 1, 0, false, false⟩ : EditorState).cursor_y []).length
      ∧ '\n' ∉ cl "xy")
    ∧ ((delete_selection
          (insert_text (⟨[cl "ab", cl "cd"], 1, 0, false, false⟩ : EditorState) (cl "xy"))
          ((⟨[cl "ab", cl "cd"], 1, 0, false, false⟩ : EditorState).cursor_y,
            (⟨[cl "ab", cl "cd"], 1, 0, false, false⟩ : EditorState).cursor_x)
          ((⟨[cl "ab", cl "cd"], 1, 0, false, false⟩ : EditorState).cursor_y,
            (⟨[cl "ab", cl "cd"], 1, 0, false, false⟩ : EditorState).cursor_x
              + (cl "xy").length)).1).lines
        = (⟨[cl "ab", cl "cd"], 1, 0, false, false⟩ : EditorState).lines :=
  ⟨⟨by decide, by decide, by decide, by decide⟩,
    c8_insert_delete_inverse (⟨[cl "ab", cl "cd"], 1, 0, false, false⟩ : EditorState)
      (cl "xy") (by decide) (by decide) (by decide) (by decide)⟩

/-! ### C4: findNext follows the wraparound scan order -/

theorem findAux_eq_find? (term : List Char) :
    ∀ (suffix line : List Char) (pos : Nat), line.drop pos = suffix →
      findAux term suffix pos
        = (List.range' pos (suffix.length + 1)).find?
            (fun x => term.isPrefixOf (line.drop x)) := by
  intro suffix
  induction suffix with
  | nil =>
    intro line pos h
    show (if term.isPrefixOf [] then some pos else none) = _
    have : List.range' pos (0 + 1) = [pos] := rfl
    rw [List.length_nil, this]
    by_cases hp : term.isPrefixOf ([] : List Char) = true
    · rw [if_pos hp, List.find?_cons_of_pos _ (by rw [h]; exact hp)]
    · rw [if_neg hp, List.find?_cons_of_neg _ (by rw [h]; exact hp)]
      rfl
  | cons c rest ih =>
    intro line pos h
    show (if term.isPrefixOf (c :: rest) then some pos
      else findAux term rest (pos + 1)) = _
    have hrg : List.range' pos ((c :: rest).length + 1)
        = pos :: List.range' (pos + 1) (rest.length + 1) := by
      rw [List.length_cons]
      exact List.range'_succ pos (rest.length + 1) 1
    rw [hrg]
    have hdrop : line.drop (pos + 1) = rest := by
      rw [← List.tail_drop, h]
      rfl
    by_cases hp : term.isPrefixOf (c :: rest) = true
    · rw [if_pos hp, List.find?_cons_of_pos _ (by rw [h]; exact hp)]
    · rw [if_neg hp, List.find?_cons_of_neg _ (by rw [h]; exact hp)]
      exact ih line (pos + 1) hdrop

theorem strFind_eq_find? (line term : List Char) (s : Nat) :
    strFind line term s
      = (List.range' s (line.length + 1 - s)).find?
          (fun x => term.isPrefixOf (line.drop x)) := by
  unfold strFind
  by_cases h : s ≤ line.length
  · rw [if_pos h, findAux_eq_find? term (line.drop s) line s rfl, List.length_drop]
    have : line.length - s + 1 = line.length + 1 - s := by omega
    rw [this]
  · rw [if_neg h]
    have : line.length + 1 - s = 0 := by omega
    rw [this]
    rfl

/-- The candidate columns of one row visited by a scanning pass, from the
start column `sx` through the end of the row, paired with the row index. -/
def rowCols (lines : List (List Char)) (y sx : Nat) : List (Nat × Nat) :=
  (List.range' sx ((lines.getD y []).length + 1 - sx)).map (fun x => (y, x))

/-- The candidate positions visited by `scanRowsFrom` over the given rows:
the first row from column `sx`, every later row from column 0. -/
def posListFrom (lines : List (List Char)) : List Nat → Nat → List (Nat × Nat)
  | [], _ => []
  | y :: rest, sx => rowCols lines y sx ++ posListFrom lines rest 0

theorem rowCols_find? (lines : List (List Char)) (term : List Char) (y sx : Nat) :
    (rowCols lines y sx).find? (occursAtB lines term)
      = (strFind (lines.getD y []) term sx).map (fun x => (y, x)) := by
  unfold rowCols
  rw [List.find?_map, strFind_eq_find?]
  congr 1

theorem scanRowsFrom_eq_find? (lines : List (List Char)) (term : List Char) :
    ∀ (rows : List Nat) (sx : Nat),
      scanRowsFrom lines term rows sx
        = (posListFrom lines rows sx).find? (occursAtB lines term) := by
  intro rows
  induction rows with
  | nil => intro sx; rfl
  | cons y rest ih =>
    intro sx
    show (match strFind (lines.getD y []) term sx with
      | some x => some (y, x)
      | none => scanRowsFrom lines term rest 0) = _
    have happ : posListFrom lines (y :: rest) sx
        = rowCols lines y sx ++ posListFrom lines rest 0 := rfl
    rw [happ, List.find?_append]
    cases hf : strFind (lines.getD y []) term sx with
    | some x =>
      have : (rowCols lines y sx).find? (occursAtB lines term) = some (y, x) := by
        rw [rowCols_find?, hf]
        rfl
      rw [this, Option.or_some]
    | none =>
      have : (rowCols lines y sx).find? (occursAtB lines term) = none := by
        rw [rowCols_find?, hf]
        rfl
      rw [this, Option.none_or]
      exact ih 0

theorem posListFrom_append (lines : List (List Char)) :
    ∀ (a b : List Nat),
      posListFrom lines (a ++ b) 0 = posListFrom lines a 0 ++ posListFrom lines b 0 := by
  intro a
  induction a with
  | nil => intro b; rfl
  | cons y rest ih =>
    intro b
    show rowCols lines y 0 ++ posListFrom lines (rest ++ b) 0 = _
    rw [ih b, ← List.append_assoc]
    rfl

theorem posListFrom_flatMap (lines : List (List Char)) :
    ∀ (rows : List Nat),
      posListFrom lines rows 0 = rows.flatMap (fun y => rowCols lines y 0) := by
  intro rows
  induction rows with
  | nil => rfl
  | cons y rest ih =>
    show rowCols lines y 0 ++ posListFrom lines rest 0 = _
    rw [ih]
    rfl

theorem specScanOrder_decomposition (lines : List (List Char)) (cy cx : Nat)
    (hcx : cx ≤ (lines.getD cy []).length) :
    specScanOrder lines cy cx
      = (rowCols lines cy (cx + 1)
          ++ posListFrom lines (List.range' (cy + 1) (lines.length - (cy + 1))) 0)
        ++ (posListFrom lines (List.range cy) 0
          ++ (List.range (cx + 1)).map (fun x => (cy, x))) := by
  unfold specScanOrder
  have h1 : (List.range' (cx + 1) ((lines.getD cy []).length - cx)).map
      (fun x => (cy, x)) = rowCols lines cy (cx + 1) := by
    unfold rowCols
    congr 2
    omega
  have h2 : ∀ (rows : List Nat),
      rows.flatMap (fun y => (List.range ((lines.getD y []).length + 1)).map
        (fun x => (y, x))) = posListFrom lines rows 0 := by
    intro rows
    rw [posListFrom_flatMap]
    congr 1
    funext y
    unfold rowCols
    rw [List.range_eq_range']
    congr 1
  rw [h1, h2, h2, List.append_assoc]

/-- `find_next` returns exactly the first occurrence of the term in the
spec's wraparound scan order. -/
theorem find_next_eq_specScan (lines : List (List Char)) (cy cx : Nat)
    (t : List Char) (hcy : cy < lines.length)
    (hcx : cx ≤ (lines.getD cy []).length) (ht : t ≠ []) :
    find_next lines cy cx t
      = (specScanOrder lines cy cx).find? (occursAtB lines t) := by
  have hrows : List.range' cy (lines.length - cy)
      = cy :: List.range' (cy + 1) (lines.length - (cy + 1)) := by
    have h : lines.length - cy = (lines.length - (cy + 1)) + 1 := by omega
    rw [h]
    exact List.range'_succ cy (lines.length - (cy + 1)) 1
  have hpass1 : scanRowsFrom lines t (List.range' cy (lines.length - cy)) (cx + 1)
      = (rowCols lines cy (cx + 1)
          ++ posListFrom lines (List.range' (cy + 1) (lines.length - (cy + 1))) 0).find?
          (occursAtB lines t) := by
    rw [hrows, scanRowsFrom_eq_find?]
    rfl
  have hspec := specScanOrder_decomposition lines cy cx hcx
  unfold find_next
  rw [if_neg ht, hpass1, hspec]
  cases hf : (rowCols lines cy (cx + 1)
      ++ posListFrom lines (List.range' (cy + 1) (lines.length - (cy + 1))) 0).find?
      (occursAtB lines t) with
  | some p =>
    show some p = _
    rw [List.find?_append, hf, Option.or_some]
  | none =>
    show scanRowsFrom lines t (List.range (cy + 1)) 0 = _
    rw [List.find?_append, hf, Option.none_or]
    have hf' := hf
    rw [List.find?_append, Option.or_eq_none] at hf'
    obtain ⟨hf1, hf2⟩ := hf'
    have hpass2 : scanRowsFrom lines t (List.range (cy + 1)) 0
        = (posListFrom lines (List.range cy) 0
            ++ (rowCols lines cy 0)).find? (occursAtB lines t) := by
      rw [scanRowsFrom_eq_find?, List.range_succ, posListFrom_append]
      have : posListFrom lines [cy] 0 = rowCols lines cy 0 := by
        show rowCols lines cy 0 ++ [] = rowCols lines cy 0
        rw [List.append_nil]
      rw [this]
    have hsplit : rowCols lines cy 0
        = (List.range (cx + 1)).map (fun x => (cy, x)) ++ rowCols lines cy (cx + 1) := by
      unfold rowCols
      rw [List.range_eq_range']
      have hr : List.range' 0 ((lines.getD cy []).length + 1 - 0)
          = List.range' 0 (cx + 1) ++ List.range' (cx + 1)
            ((lines.getD cy []).length + 1 - (cx + 1)) := by
        have := List.range'_append 0 (cx + 1)
          ((lines.getD cy []).length + 1 - (cx + 1)) 1
        simp only [Nat.one_mul, Nat.zero_add] at this
        rw [this]
        congr 1
        omega
      rw [hr, List.map_append]
    rw [hpass2, hsplit]
    simp only [List.find?_append, hf1, Option.or_none]

theorem occursAtB_col_lt (lines : List (List Char)) (t : List Char) (y x : Nat)
    (ht : t ≠ []) (h : occursAtB lines t (y, x) = true) :
    x < (lines.getD y []).length := by
  unfold occursAtB at h
  by_contra hge
  have hnil : (lines.getD y []).drop x = [] := by
    have : (lines.getD y []).length ≤ x := by omega
    simpa using this
  rw [hnil] at h
  cases t with
  | nil => exact ht rfl
  | cons c cs => simp [List.isPrefixOf] at h

theorem mem_specScanOrder (lines : List (List Char)) (cy cx y x : Nat)
    (hcy : cy < lines.length) (hcx : cx ≤ (lines.getD cy []).length)
    (hy : y < lines.length) (hx : x < (lines.getD y []).length) :
    (y, x) ∈ specScanOrder lines cy cx := by
  unfold specScanOrder
  simp only [List.mem_append, List.mem_map, List.mem_flatMap, List.mem_range,
    List.mem_range'_1, Prod.mk.injEq]
  rcases Nat.lt_trichotomy y cy with hlt | heq | hgt
  · refine Or.inl (Or.inr ?_)
    exact ⟨y, hlt, x, by omega, rfl, rfl⟩
  · subst heq
    rcases Nat.lt_or_ge cx x with hgtx | hlex
    · refine Or.inl (Or.inl (Or.inl ?_))
      exact ⟨x, ⟨by omega, by omega⟩, rfl, rfl⟩
    · refine Or.inr ?_
      exact ⟨x, by omega, rfl, rfl⟩
  · refine Or.inl (Or.inl (Or.inr ?_))
    exact ⟨y, ⟨by omega, by omega⟩, x, by omega, rfl, rfl⟩

theorem specScanOrder_row_lt (lines : List (List Char)) (cy cx : Nat)
    (hcy : cy < lines.length) :
    ∀ p ∈ specScanOrder lines cy cx, p.1 < lines.length := by
  intro p hp
  unfold specScanOrder at hp
  simp only [List.mem_append, List.mem_map, List.mem_flatMap, List.mem_range,
    List.mem_range'_1] at hp
  rcases hp with ((⟨a, ha, hpa⟩ | ⟨yy, hyy, b, hb, hpb⟩) | ⟨yy, hyy, b, hb, hpb⟩)
    | ⟨a, ha, hpa⟩
  · rw [← hpa]; exact hcy
  · rw [← hpb]; exact (show yy < lines.length by omega)
  · rw [← hpb]; exact (show yy < lines.length by omega)
  · rw [← hpa]; exact hcy

/-- C4.  `find_next` returns the start position of the first occurrence of
a non-empty term in the forward-wraparound scan order (rest of the cursor
row from column `cursor_x + 1`, then every later row from column 0, then
rows 0 through the cursor row up to the original start column); it returns
`none` exactly when the term occurs nowhere in the buffer; and the empty
term always yields `none`.  (`find_next` is a pure function of the buffer
and cursor here, matching the source, which mutates neither.) -/
theorem c4_find_next_follows_scan_order (lines : List (List Char))
    (cy cx : Nat) (t : List Char) (hcy : cy < lines.length)
    (hcx : cx ≤ (lines.getD cy []).length) :
    find_next lines cy cx [] = none
    ∧ (t ≠ [] →
        find_next lines cy cx t = (specScanOrder lines cy cx).find? (occursAtB lines t))
    ∧ (t ≠ [] →
        (find_next lines cy cx t = none
          ↔ ∀ y x, y < lines.length → occursAtB lines t (y, x) = false)) := by
  refine ⟨by simp [find_next], fun ht => find_next_eq_specScan lines cy cx t hcy hcx ht,
    fun ht => ?_⟩
  rw [find_next_eq_specScan lines cy cx t hcy hcx ht, List.find?_eq_none]
  constructor
  · intro h y x hy
    by_contra hocc
    have hocc' : occursAtB lines t (y, x) = true := by
      cases hb : occursAtB lines t (y, x) with
      | true => rfl
      | false => exact absurd hb hocc
    have hxlt := occursAtB_col_lt lines t y x ht hocc'
    exact h (y, x) (mem_specScanOrder lines cy cx y x hcy hcx hy hxlt) hocc'
  · intro h p hp
    have hrow := specScanOrder_row_lt lines cy cx hcy p hp
    have := h p.1 p.2 hrow
    rw [this]
    exact Bool.false_ne_true

/-- Witness for C4 at a concrete input: in the buffer `["abcab", "xab"]`
with the cursor at `(0, 0)` the scan for `"ab"` skips the occurrence at
the cursor and finds `(0, 3)` first in scan order. -/
theorem c4_find_next_follows_scan_order_witness :
    ((0 : Nat) < ([cl "abcab", cl "xab"] : List (List Char)).length
      ∧ (0 : Nat) ≤ (([cl "abcab", cl "xab"] : List (List Char)).getD 0 []).length)
    ∧ (find_next [cl "abcab", cl "xab"] 0 0 [] = none
      ∧ (cl "ab" ≠ [] →
          find_next [cl "abcab", cl "xab"] 0 0 (cl "ab")
            = (specScanOrder [cl "abcab", cl "xab"] 0 0).find?
                (occursAtB [cl "abcab", cl "xab"] (cl "ab")))
      ∧ (cl "ab" ≠ [] →
          (find_next [cl "abcab", cl "xab"] 0 0 (cl "ab") = none
            ↔ ∀ y x, y < ([cl "abcab", cl "xab"] : List (List Char)).length
              → occursAtB [cl "abcab", cl "xab"] (cl "ab") (y, x) = false))) :=
  ⟨⟨by decide, by decide⟩,
    c4_find_next_follows_scan_order [cl "abcab", cl "xab"] 0 0 (cl "ab")
      (by decide) (by decide)⟩

end Geteed
